import Mathlib

set_option maxHeartbeats 1000000
set_option maxRecDepth 8000
set_option linter.unusedSectionVars false
set_option linter.unusedVariables false

namespace ZKIR

instance {ε α : Type} [DecidableEq ε] [DecidableEq α] : DecidableEq (Except ε α) :=
  fun x y =>
    match x, y with
    | .ok a, .ok b =>
      if h : a = b then isTrue (congrArg Except.ok h)
      else isFalse (fun hh => h (Except.ok.inj hh))
    | .error a, .error b =>
      if h : a = b then isTrue (congrArg Except.error h)
      else isFalse (fun hh => h (Except.error.inj hh))
    | .ok _, .error _ => isFalse (fun hh => Except.noConfusion hh)
    | .error _, .ok _ => isFalse (fun hh => Except.noConfusion hh)

/-- Modelled from the spec: a variable (wire) is a dense index; `FlatVariable`
lives in `flat_absy/flat_variable.rs`, which is not among the provided sources. -/
abbrev Var := Nat

/-- Modelled from the spec: the distinguished variable `ONE` whose witness value
is constrained to 1 (`FlatVariable::one()`). -/
def varOne : Var := 0

/-- Lookup in an association list, mirroring `BTreeMap::get`. -/
def listGet {α : Type} (k : Nat) : List (Nat × α) → Option α
  | [] => none
  | t :: rest => if k = t.1 then some t.2 else listGet k rest

/-- Key-ordered insert, mirroring `BTreeMap::insert` on a key-sorted association list. -/
def listInsert {α : Type} (k : Nat) (v : α) : List (Nat × α) → List (Nat × α)
  | [] => [(k, v)]
  | t :: rest =>
    if k < t.1 then (k, v) :: t :: rest
    else if k = t.1 then (k, v) :: rest
    else t :: listInsert k v rest

/-- Removal of a key, mirroring `BTreeMap::remove` / `Entry::remove`. -/
def listErase {α : Type} (k : Nat) : List (Nat × α) → List (Nat × α)
  | [] => []
  | t :: rest => if k = t.1 then rest else t :: listErase k rest

/-- `LinComb<T>` from `ir/expression.rs`: a formal linear combination stored as
the list of `(variable, coefficient)` pairs of the Rust tuple-struct field `.0`. -/
structure LinComb (F : Type) where
  terms : List (Var × F)
deriving DecidableEq

/-- `QuadComb<T>` from `ir/expression.rs`: the product of two linear combinations. -/
structure QuadComb (F : Type) where
  left : LinComb F
  right : LinComb F
deriving DecidableEq

/-- `LinComb::zero` (ir/expression.rs). -/
def LinComb.zeroLC {F : Type} : LinComb F := ⟨[]⟩

/-- `LinComb::is_zero` (ir/expression.rs): true iff the stored term list is empty. -/
def LinComb.is_zero {F : Type} (l : LinComb F) : Bool := l.terms.isEmpty

section Algebra

variable {F : Type} [Field F] [DecidableEq F]

/-- Term-by-term lookup of `LinComb::evaluate` (ir/interpreter.rs): map each
term to `witness[var] * coeff`, failing if any variable is unbound. -/
def evalTerms (w : List (Var × F)) : List (Var × F) → Option (List F)
  | [] => some []
  | t :: rest =>
    match listGet t.1 w with
    | none => none
    | some v => (evalTerms w rest).map (fun l => v * t.2 :: l)

/-- `LinComb::evaluate` (ir/interpreter.rs): collect the term values, then fold
their sum starting from `T::from(0)`. -/
def LinComb.evaluate (l : LinComb F) (w : List (Var × F)) : Option F :=
  (evalTerms w l.terms).map (fun v => v.foldl (fun acc t => acc + t) 0)

/-- `LinComb::is_assignee` (ir/interpreter.rs): exactly one stored term, with
coefficient `T::from(1)`, whose variable is not yet bound in the witness. -/
def LinComb.is_assignee {α : Type} (l : LinComb F) (w : List (Var × α)) : Bool :=
  decide (l.terms.length = 1) &&
    match l.terms.head? with
    | some t => decide (t.2 = 1) && !(listGet t.1 w).isSome
    | none => false

/-- `LinComb::try_constant` (ir/expression.rs): empty reduces to `0`; otherwise
all terms must share the variable `ONE`, and the coefficients are summed. -/
def LinComb.try_constant (l : LinComb F) : Except (LinComb F) F :=
  match l.terms with
  | [] => .ok 0
  | t0 :: _ =>
    if t0.1 ≠ varOne then .error l
    else if l.terms.all (fun e => decide (e.1 = t0.1)) then
      .ok (l.terms.foldl (fun acc e => acc + e.2) 0)
    else .error l

/-- `impl Mul<&T> for LinComb` (ir/expression.rs): scaling by `1` is the
identity; otherwise every coefficient is multiplied by the scalar. -/
def LinComb.mulScalar (l : LinComb F) (scalar : F) : LinComb F :=
  if scalar = 1 then l
  else ⟨l.terms.map (fun t => (t.1, t.2 * scalar))⟩

/-- `QuadComb::try_linear` (ir/expression.rs). -/
def QuadComb.try_linear (q : QuadComb F) : Except (QuadComb F) (LinComb F) :=
  if q.left.is_zero || q.right.is_zero then .ok LinComb.zeroLC
  else
    match q.left.try_constant with
    | .ok c => .ok (q.right.mulScalar c)
    | .error left =>
      match q.right.try_constant with
      | .ok c => .ok (left.mulScalar c)
      | .error right => .error ⟨left, right⟩

/-- `QuadComb::evaluate` (ir/interpreter.rs): evaluate both factors, then multiply. -/
def QuadComb.evaluate (q : QuadComb F) (w : List (Var × F)) : Option F :=
  match q.left.evaluate w with
  | none => none
  | some l =>
    match q.right.evaluate w with
    | none => none
    | some r => some (l * r)

/-- One `entry` update of `LinComb::into_canonical` (ir/expression.rs): skip
zero incoming coefficients; on an occupied entry add, removing the entry if the
sum is zero; on a vacant entry insert. -/
def canonStep (acc : List (Var × F)) (t : Var × F) : List (Var × F) :=
  if t.2 = 0 then acc
  else
    match listGet t.1 acc with
    | some o => if o + t.2 = 0 then listErase t.1 acc else listInsert t.1 (o + t.2) acc
    | none => listInsert t.1 t.2 acc

/-- `LinComb::into_canonical` (ir/expression.rs): fold the stored terms into the
ordered map underlying `CanonicalLinComb`. -/
def LinComb.into_canonical (l : LinComb F) : List (Var × F) :=
  l.terms.foldl canonStep []

/-- `impl PartialEq for LinComb` (ir/expression.rs): equality canonicalizes both
sides and compares the resulting ordered maps entry for entry. -/
def LinComb.beqCanonical (a b : LinComb F) : Bool :=
  decide (a.into_canonical = b.into_canonical)

/-- Total coefficient of a variable across a term list (specification device for
describing `into_canonical`'s summation of duplicates). -/
def sumC (v : Var) : List (Var × F) → F
  | [] => 0
  | t :: rest => (if t.1 = v then t.2 else 0) + sumC v rest

end Algebra


/-- Modelled from the spec: the closed sum type `Solver` (file `solvers.rs` is
not among the provided sources; the variants are those of spec section 4.3). -/
inductive Solver where
  | ConditionEq
  | Bits (bitwidth : Nat)
  | Xor
  | Or
  | ShaAndXorAndXorAnd
  | ShaCh
  | Div
deriving DecidableEq

/-- Modelled from the spec: `Solver::get_signature`, the declared
`(input_arity, output_arity)` of each solver (spec section 4.3 table). -/
def Solver.get_signature : Solver → Nat × Nat
  | .ConditionEq => (1, 2)
  | .Bits bitwidth => (1, bitwidth)
  | .Xor => (2, 1)
  | .Or => (2, 1)
  | .ShaAndXorAndXorAnd => (3, 1)
  | .ShaCh => (3, 1)
  | .Div => (2, 1)

/-- Modelled from the spec: `Directive` (spec section 3; `ir/mod.rs` is not among
the provided sources): solver inputs, the solver, and the output variables. -/
structure Directive (F : Type) where
  inputs : List (QuadComb F)
  solver : Solver
  outputs : List Var
deriving DecidableEq

/-- Modelled from the spec: `Statement` (spec section 3): a constraint
`Q = L` or a directive. -/
inductive Statement (F : Type) where
  | Constraint (quad : QuadComb F) (lin : LinComb F)
  | Directive (d : Directive F)
deriving DecidableEq

/-- Modelled from the spec: `Prog` (spec section 3): declared argument variables
in order, and the ordered statement list (the code reaches them as
`program.main.arguments` / `program.main.statements`). -/
structure Prog (F : Type) where
  arguments : List Var
  statements : List (Statement F)
deriving DecidableEq

/-- `Error` (ir/interpreter.rs). -/
inductive Error where
  | UnsatisfiedConstraint (left right : String)
  | Solver
  | WrongInputCount (expected received : Nat)
deriving DecidableEq

/-- `impl Display for Error` (ir/interpreter.rs). -/
def errDisplay : Error → String
  | .UnsatisfiedConstraint left right => "Expected " ++ left ++ " to equal " ++ right
  | .Solver => ""
  | .WrongInputCount expected received =>
      "Program takes " ++ toString expected ++ " input" ++
        (if expected = 1 then "" else "s") ++
      " but was passed " ++ toString received ++ " value" ++
        (if received = 1 then "" else "s")

/-- Modelled from the spec: `T::get_required_bits()`, the canonical bit-length
`B` of the modulus (spec section 3; `zokrates_field` is not among the provided
sources). Computed with a structural fuel so that it evaluates by `decide`. -/
def bitLenAux : Nat → Nat → Nat
  | 0, _ => 0
  | _ + 1, 0 => 0
  | fuel + 1, n + 1 => bitLenAux fuel ((n + 1) / 2) + 1

/-- Modelled from the spec: `B = ⌈log₂ p⌉` for the (non-power-of-two) modulus
`p`, i.e. the bit length of `p`. -/
def requiredBits (p : Nat) : Nat := bitLenAux p p

/-- Modelled from the spec: `T::to_dec_string()`, the non-negative decimal
rendering of a field element (spec section 7). -/
def toDecString {p : Nat} (x : ZMod p) : String := toString x.val

/-- Modelled from the spec: `T::to_compact_dec_string()`, the compact decimal
rendering used by `Display for LinComb` (values above `p/2` print as the
negative of their complement). -/
def compactDec {p : Nat} (x : ZMod p) : String :=
  if 2 * x.val ≤ p then toString x.val else "-" ++ toString (p - x.val)

/-- Modelled from the spec: the display of an ordinary variable is `_id`
(spec scenario 4: `v7` renders as `_7`). -/
def varDisplay (v : Var) : String := "_" ++ toString v

section Interp

variable {p : Nat} [Fact p.Prime]

/-- `impl Display for LinComb` (ir/expression.rs): `"0"` when the stored list is
empty, otherwise the canonical entries rendered `coeff * var` joined by `+`. -/
def LinComb.display (l : LinComb (ZMod p)) : String :=
  if l.is_zero then "0"
  else
    String.intercalate " + "
      (l.into_canonical.map (fun t => compactDec t.2 ++ " * " ++ varDisplay t.1))

/-- The loop of the `Solver::Bits` arm of `Interpreter::execute_solver`
(ir/interpreter.rs): for `i` from `bit_width - 1` down to `0`, if
`T::from(2).pow(i) <= num` (comparison of field representatives) emit `1` and
subtract, else emit `0`; the second component is the final `num`. -/
def bitsGo : Nat → ZMod p → List (ZMod p) × ZMod p
  | 0, num => ([], num)
  | i + 1, num =>
    if ((2 : ZMod p) ^ i).val ≤ num.val then
      let r := bitsGo i (num - (2 : ZMod p) ^ i)
      ((1 : ZMod p) :: r.1, r.2)
    else
      let r := bitsGo i num
      ((0 : ZMod p) :: r.1, r.2)

/-- The per-variant computation of `Interpreter::execute_solver`
(ir/interpreter.rs); `none` models a panic (the `assert_eq!(num, T::zero())` of
`Bits`, or division by zero in `Div`). Indexing `inputs[i]` is guarded by the
input-arity assertion, hence modelled with a harmless default. -/
def solverValue (s : Solver) (inputs : List (ZMod p)) : Option (List (ZMod p)) :=
  match s with
  | .ConditionEq =>
      let x := inputs.getD 0 0
      some (if x = 0 then [0, 1] else [1, 1 / x])
  | .Bits bit_width =>
      let r := bitsGo bit_width (inputs.getD 0 0)
      if r.2 = 0 then some r.1 else none
  | .Xor =>
      let x := inputs.getD 0 0
      let y := inputs.getD 1 0
      some [x + y - 2 * x * y]
  | .Or =>
      let x := inputs.getD 0 0
      let y := inputs.getD 1 0
      some [x + y - x * y]
  | .ShaAndXorAndXorAnd =>
      let a := inputs.getD 0 0
      let b := inputs.getD 1 0
      let c := inputs.getD 2 0
      some [b * c - (2 * b * c - b - c) * a]
  | .ShaCh =>
      let a := inputs.getD 0 0
      let b := inputs.getD 1 0
      let c := inputs.getD 2 0
      some [a * (b - c) + c]
  | .Div =>
      if inputs.getD 1 0 = 0 then none
      else some [inputs.getD 0 0 / inputs.getD 1 0]

/-- `Interpreter::execute_solver` (ir/interpreter.rs): assert the input arity,
compute the result, assert the output arity, and return `Ok`; `none` models a
panic of either assertion or of the solver body. -/
def execute_solver (s : Solver) (inputs : List (ZMod p)) :
    Option (Except String (List (ZMod p))) :=
  if inputs.length = s.get_signature.1 then
    match solverValue s inputs with
    | none => none
    | some res => if res.length = s.get_signature.2 then some (.ok res) else none
  else none

/-- The match guard of the `Statement::Directive` arm of `Interpreter::execute`
(ir/interpreter.rs lines 64-68), with Rust operator precedence: `&&` binds
tighter than `||`, so the condition is
`left.len > 1 || (right.len > 1 && bitwidth == B)`. The guard indexes
`inputs[0]`, which the claims only reach with nonempty `inputs`; it is modelled
with an empty default. -/
def directiveGuard (p : Nat) (should_try : Bool) (d : Directive (ZMod p)) : Bool :=
  match d.solver, should_try with
  | .Bits bitwidth, true =>
      let q := d.inputs.getD 0 ⟨⟨[]⟩, ⟨[]⟩⟩
      decide (q.left.terms.length > 1) ||
        (decide (q.right.terms.length > 1) && decide (bitwidth = requiredBits p))
  | _, _ => false

/-- Modelled from the spec, alongside `directiveGuard`: the condition the spec
states as intended (spec sections 4.4 and 9):
`(left.len > 1 OR right.len > 1) AND bitwidth = B`, under the same
`should_try_out_of_range` and `Bits` match. -/
def specDirectiveCondition (p : Nat) (should_try : Bool) (d : Directive (ZMod p)) : Bool :=
  match d.solver, should_try with
  | .Bits bitwidth, true =>
      let q := d.inputs.getD 0 ⟨⟨[]⟩, ⟨[]⟩⟩
      (decide (q.left.terms.length > 1) || decide (q.right.terms.length > 1)) &&
        decide (bitwidth = requiredBits p)
  | _, _ => false

/-- The big-integer greedy loop of `Interpreter::try_solve_out_of_range`
(ir/interpreter.rs): natural-number arithmetic, pushing field `1`/`0` bits. -/
def natBitsGo : Nat → Nat → List (ZMod p) × Nat
  | 0, num => ([], num)
  | i + 1, num =>
    if 2 ^ i ≤ num then
      let r := natBitsGo i (num - 2 ^ i)
      ((1 : ZMod p) :: r.1, r.2)
    else
      let r := natBitsGo i num
      ((0 : ZMod p) :: r.1, r.2)

/-- Binding of solver outputs: `for (i, o) in d.outputs.iter().enumerate()`
insert `res[i]` (ir/interpreter.rs lines 80-82 and 121-123); `none` models the
panic of `res[i]` when `res` is too short. -/
def bindOutputs : List Var → List (ZMod p) → List (Var × ZMod p) →
    Option (List (Var × ZMod p))
  | [], _, w => some w
  | o :: os, r :: rs, w => bindOutputs os rs (listInsert o r w)
  | _ :: _, [], _ => none

/-- `Interpreter::try_solve_out_of_range` (ir/interpreter.rs): evaluate the
first input, add `max_value + 1 = p` as big integers, keep the candidate if it
fits in `B` bits, decompose greedily over `B` bits, assert the remainder is
zero, and bind the outputs. `none` models the panics (`unwrap`, `assert_eq!`,
indexing). -/
def try_solve_out_of_range (d : Directive (ZMod p)) (w : List (Var × ZMod p)) :
    Option (List (Var × ZMod p)) :=
  match d.inputs with
  | [] => none
  | q :: _ =>
    match q.evaluate w with
    | none => none
    | some value =>
      let candidate : Nat := value.val + (p - 1) + 1
      let input : Nat :=
        if candidate < 2 ^ requiredBits p then candidate else value.val
      let r := natBitsGo (p := p) (requiredBits p) input
      if r.2 = 0 then bindOutputs d.outputs r.1 w else none

/-- Evaluation of all directive inputs
(`d.inputs.iter().map(|i| i.evaluate(&witness).unwrap())`, ir/interpreter.rs);
`none` models the panic of `unwrap`. -/
def evalInputs (w : List (Var × ZMod p)) : List (QuadComb (ZMod p)) →
    Option (List (ZMod p))
  | [] => some []
  | q :: rest =>
    match q.evaluate w with
    | none => none
    | some v => (evalInputs w rest).map (fun l => v :: l)

/-- One statement of the loop of `Interpreter::execute` (ir/interpreter.rs):
the `Constraint` arm (assignment form or equality check) and the `Directive`
arm (out-of-range path when the guard holds, otherwise evaluate inputs, run the
solver and bind the outputs). `none` models a panic. -/
def execStatement (should_try : Bool) (w : List (Var × ZMod p)) :
    Statement (ZMod p) → Option (Except Error (List (Var × ZMod p)))
  | .Constraint quad lin =>
    if lin.is_assignee w then
      match quad.evaluate w with
      | none => none
      | some val =>
        match lin.terms with
        | [] => none
        | t :: _ => some (.ok (listInsert t.1 val w))
    else
      match quad.evaluate w with
      | none => none
      | some lhs_value =>
        match lin.evaluate w with
        | none => none
        | some rhs_value =>
          if lhs_value ≠ rhs_value then
            some (.error (.UnsatisfiedConstraint (toDecString lhs_value)
              (toDecString rhs_value)))
          else some (.ok w)
  | .Directive d =>
    if directiveGuard p should_try d then
      match try_solve_out_of_range d w with
      | none => none
      | some w' => some (.ok w')
    else
      match evalInputs w d.inputs with
      | none => none
      | some inputs =>
        match execute_solver d.solver inputs with
        | none => none
        | some (.error _) => some (.error .Solver)
        | some (.ok res) =>
          match bindOutputs d.outputs res w with
          | none => none
          | some w' => some (.ok w')

/-- The statement loop of `Interpreter::execute` (ir/interpreter.rs). -/
def execStatements (should_try : Bool) (w : List (Var × ZMod p)) :
    List (Statement (ZMod p)) → Option (Except Error (List (Var × ZMod p)))
  | [] => some (.ok w)
  | s :: rest =>
    match execStatement should_try w s with
    | none => none
    | some (.error e) => some (.error e)
    | some (.ok w') => execStatements should_try w' rest

/-- `Interpreter::check_inputs` (ir/interpreter.rs). -/
def check_inputs (prog : Prog (ZMod p)) (inputs : List (ZMod p)) :
    Except Error Unit :=
  if prog.arguments.length = inputs.length then .ok ()
  else .error (.WrongInputCount prog.arguments.length inputs.length)

/-- `Interpreter::execute` (ir/interpreter.rs): arity check, seed the witness
with `ONE ↦ 1` and the arguments zipped with the inputs, then run the statement
loop. `none` models a panic. -/
def execute (should_try : Bool) (prog : Prog (ZMod p)) (inputs : List (ZMod p)) :
    Option (Except Error (List (Var × ZMod p))) :=
  match check_inputs prog inputs with
  | .error e => some (.error e)
  | .ok _ =>
    let w0 := listInsert varOne (1 : ZMod p) []
    let w1 := (prog.arguments.zip inputs).foldl (fun w av => listInsert av.1 av.2 w) w0
    execStatements should_try w1 prog.statements

/-- The big-endian weighted sum `Σ bit_i · 2^(w−1−i)` of a bit vector, on the
integer representatives. -/
def wsum : List (ZMod p) → Nat
  | [] => 0
  | b :: rest => b.val * 2 ^ rest.length + wsum rest

/-- Spec section 3 witness invariant: the witness binds `ONE ↦ 1`. -/
abbrev isSeeded {F : Type} [Field F] (w : List (Var × F)) : Prop :=
  listGet varOne w = some 1

end Interp

instance : Fact (Nat.Prime 7) := ⟨by norm_num⟩

instance : Fact (Nat.Prime 101) := ⟨by norm_num⟩

section MapLemmas

variable {α : Type}

theorem listGet_insert_self (k : Nat) (v : α) (l : List (Nat × α)) :
    listGet k (listInsert k v l) = some v := by
  induction l with
  | nil => simp [listInsert, listGet]
  | cons t rest ih =>
    by_cases h1 : k < t.1
    · simp [listInsert, h1, listGet]
    · by_cases h2 : k = t.1
      · simp [listInsert, h1, h2, listGet]
      · simp [listInsert, h1, h2, listGet, ih]

theorem listGet_insert_ne (j k : Nat) (v : α) (l : List (Nat × α)) (h : j ≠ k) :
    listGet j (listInsert k v l) = listGet j l := by
  induction l with
  | nil => simp [listInsert, listGet, h]
  | cons t rest ih =>
    by_cases h1 : k < t.1
    · simp [listInsert, h1, listGet, h]
    · by_cases h2 : k = t.1
      · have h3 : j ≠ t.1 := h2 ▸ h
        simp [listInsert, h1, h2, listGet, h, h3]
      · by_cases h4 : j = t.1
        · simp [listInsert, h1, h2, listGet, h4]
        · simp [listInsert, h1, h2, listGet, h4, ih]

theorem listGet_erase_ne (j k : Nat) (l : List (Nat × α)) (h : j ≠ k) :
    listGet j (listErase k l) = listGet j l := by
  induction l with
  | nil => simp [listErase]
  | cons t rest ih =>
    by_cases h2 : k = t.1
    · have h3 : j ≠ t.1 := h2 ▸ h
      simp [listErase, h2, listGet, h3]
    · by_cases h4 : j = t.1
      · simp [listErase, h2, listGet, h4]
      · simp [listErase, h2, listGet, h4, ih]

theorem mem_listInsert (t : Nat × α) (k : Nat) (v : α) (l : List (Nat × α))
    (h : t ∈ listInsert k v l) : t = (k, v) ∨ t ∈ l := by
  induction l with
  | nil =>
    rw [listInsert] at h
    exact Or.inl (List.mem_singleton.mp h)
  | cons u rest ih =>
    by_cases h1 : k < u.1
    · rw [listInsert, if_pos h1] at h
      exact List.mem_cons.mp h
    · by_cases h2 : k = u.1
      · rw [listInsert, if_neg h1, if_pos h2] at h
        rcases List.mem_cons.mp h with h3 | h3
        · exact Or.inl h3
        · exact Or.inr (List.mem_cons_of_mem _ h3)
      · rw [listInsert, if_neg h1, if_neg h2] at h
        rcases List.mem_cons.mp h with h3 | h3
        · exact Or.inr (by rw [h3]; exact List.mem_cons_self u rest)
        · rcases ih h3 with h4 | h4
          · exact Or.inl h4
          · exact Or.inr (List.mem_cons_of_mem _ h4)

theorem mem_listErase (t : Nat × α) (k : Nat) (l : List (Nat × α))
    (h : t ∈ listErase k l) : t ∈ l := by
  induction l with
  | nil => simp [listErase] at h
  | cons u rest ih =>
    by_cases h2 : k = u.1
    · rw [listErase, if_pos h2] at h
      exact List.mem_cons_of_mem _ h
    · rw [listErase, if_neg h2] at h
      rcases List.mem_cons.mp h with h3 | h3
      · exact (by rw [h3]; exact List.mem_cons_self u rest)
      · exact List.mem_cons_of_mem _ (ih h3)

theorem pairwise_listInsert (k : Nat) (v : α) (l : List (Nat × α))
    (h : l.Pairwise (fun a b => a.1 < b.1)) :
    (listInsert k v l).Pairwise (fun a b => a.1 < b.1) := by
  induction l with
  | nil => simp [listInsert]
  | cons t rest ih =>
    rw [List.pairwise_cons] at h
    by_cases h1 : k < t.1
    · rw [listInsert]
      simp only [h1, if_pos]
      refine List.Pairwise.cons ?_ (List.Pairwise.cons h.1 h.2)
      intro y hy
      rcases List.mem_cons.mp hy with h3 | h3
      · exact h3 ▸ h1
      · exact Nat.lt_trans h1 (h.1 y h3)
    · by_cases h2 : k = t.1
      · rw [listInsert, if_neg h1, if_pos h2]
        exact List.Pairwise.cons (fun y hy => by have := h.1 y hy; simp only; omega) h.2
      · rw [listInsert]
        simp only [h1, h2, if_neg, if_false]
        refine List.Pairwise.cons ?_ (ih h.2)
        intro y hy
        rcases mem_listInsert y k v rest hy with h3 | h3
        · subst h3; omega
        · exact h.1 y h3

theorem pairwise_listErase (k : Nat) (l : List (Nat × α))
    (h : l.Pairwise (fun a b => a.1 < b.1)) :
    (listErase k l).Pairwise (fun a b => a.1 < b.1) := by
  induction l with
  | nil => simp [listErase]
  | cons t rest ih =>
    rw [List.pairwise_cons] at h
    by_cases h2 : k = t.1
    · rw [listErase]; simp only [h2, if_pos, if_true]; exact h.2
    · rw [listErase]
      simp only [h2, if_neg, if_false]
      exact List.Pairwise.cons (fun y hy => h.1 y (mem_listErase y k rest hy)) (ih h.2)

theorem listGet_none_of_forall (k : Nat) (l : List (Nat × α))
    (h : ∀ t ∈ l, t.1 ≠ k) : listGet k l = none := by
  induction l with
  | nil => rfl
  | cons t rest ih =>
    have h1 : k ≠ t.1 := fun hh => h t (List.mem_cons_self t rest) hh.symm
    rw [listGet]
    simp only [h1, if_neg, if_false]
    exact ih (fun u hu => h u (List.mem_cons_of_mem _ hu))

theorem listGet_erase_self (k : Nat) (l : List (Nat × α))
    (h : l.Pairwise (fun a b => a.1 < b.1)) : listGet k (listErase k l) = none := by
  induction l with
  | nil => rfl
  | cons t rest ih =>
    rw [List.pairwise_cons] at h
    by_cases h2 : k = t.1
    · rw [listErase]
      simp only [h2, if_pos, if_true]
      exact listGet_none_of_forall _ _ (fun u hu => by have := h.1 u hu; omega)
    · rw [listErase]
      simp only [h2, if_neg, if_false]
      rw [listGet]
      simp only [h2, if_neg, if_false]
      exact ih h.2

theorem mem_of_listGet (k : Nat) (o : α) (l : List (Nat × α))
    (h : listGet k l = some o) : (k, o) ∈ l := by
  induction l with
  | nil => simp [listGet] at h
  | cons t rest ih =>
    by_cases h2 : k = t.1
    · rw [listGet] at h
      simp only [h2, if_pos, if_true] at h
      have : t = (k, o) := by
        cases t
        simp only at h2
        simp only [Option.some.injEq] at h
        simp [h2, h]
      exact this ▸ List.mem_cons_self t rest
    · rw [listGet] at h
      simp only [h2, if_neg, if_false] at h
      exact List.mem_cons_of_mem _ (ih h)

end MapLemmas

section CanonLemmas

variable {F : Type} [Field F] [DecidableEq F]

theorem canonStep_preserves (acc : List (Var × F)) (t : Var × F)
    (hS : acc.Pairwise (fun a b => a.1 < b.1)) (hP : ∀ u ∈ acc, u.2 ≠ 0) :
    (canonStep acc t).Pairwise (fun a b => a.1 < b.1) ∧
      ∀ u ∈ canonStep acc t, u.2 ≠ 0 := by
  rw [canonStep]
  by_cases h0 : t.2 = 0
  · simp only [h0, if_pos, if_true]
    exact ⟨hS, hP⟩
  · simp only [h0, if_neg, if_false]
    cases hget : listGet t.1 acc with
    | some o =>
      by_cases hz : o + t.2 = 0
      · simp only [hz, if_pos, if_true]
        exact ⟨pairwise_listErase _ _ hS,
          fun u hu => hP u (mem_listErase u t.1 acc hu)⟩
      · simp only [hz, if_neg, if_false]
        refine ⟨pairwise_listInsert _ _ _ hS, fun u hu => ?_⟩
        rcases mem_listInsert u t.1 (o + t.2) acc hu with h3 | h3
        · rw [h3]; exact hz
        · exact hP u h3
    | none =>
      refine ⟨pairwise_listInsert _ _ _ hS, fun u hu => ?_⟩
      rcases mem_listInsert u t.1 t.2 acc hu with h3 | h3
      · rw [h3]; exact h0
      · exact hP u h3

theorem listGet_eq_if (v : Var) (acc : List (Var × F)) (hP : ∀ u ∈ acc, u.2 ≠ 0) :
    listGet v acc =
      (if (listGet v acc).getD 0 = 0 then none else some ((listGet v acc).getD 0)) := by
  cases hget : listGet v acc with
  | none => simp
  | some o =>
    have ho : o ≠ 0 := by
      have := hP (v, o) (mem_of_listGet v o acc hget)
      simpa using this
    simp [ho]

theorem listGet_canonStep_self (acc : List (Var × F)) (t : Var × F)
    (hS : acc.Pairwise (fun a b => a.1 < b.1)) (hP : ∀ u ∈ acc, u.2 ≠ 0) :
    listGet t.1 (canonStep acc t) =
      (if (listGet t.1 acc).getD 0 + t.2 = 0 then none
       else some ((listGet t.1 acc).getD 0 + t.2)) := by
  rw [canonStep]
  by_cases h0 : t.2 = 0
  · simp only [h0, if_pos, if_true, add_zero]
    exact listGet_eq_if t.1 acc hP
  · simp only [h0, if_neg, if_false]
    cases hget : listGet t.1 acc with
    | some o =>
      by_cases hz : o + t.2 = 0
      · simp only [hz, if_pos, if_true]
        rw [listGet_erase_self t.1 acc hS]
        simp [hz]
      · simp only [hz, if_neg, if_false]
        rw [listGet_insert_self]
        simp [hz]
    | none =>
      rw [listGet_insert_self]
      simp [h0]

theorem listGet_canonStep_ne (acc : List (Var × F)) (t : Var × F) (j : Var)
    (hj : j ≠ t.1) : listGet j (canonStep acc t) = listGet j acc := by
  rw [canonStep]
  by_cases h0 : t.2 = 0
  · simp only [h0, if_pos, if_true]
  · simp only [h0, if_neg, if_false]
    cases listGet t.1 acc with
    | some o =>
      by_cases hz : o + t.2 = 0
      · simp only [hz, if_pos, if_true]
        exact listGet_erase_ne j t.1 acc hj
      · simp only [hz, if_neg, if_false]
        exact listGet_insert_ne j t.1 _ acc hj
    | none => exact listGet_insert_ne j t.1 _ acc hj

theorem canonFold_inv (ts : List (Var × F)) :
    ∀ acc : List (Var × F), acc.Pairwise (fun a b => a.1 < b.1) →
      (∀ u ∈ acc, u.2 ≠ 0) →
      (ts.foldl canonStep acc).Pairwise (fun a b => a.1 < b.1) ∧
        ∀ u ∈ ts.foldl canonStep acc, u.2 ≠ 0 := by
  induction ts with
  | nil => exact fun acc hS hP => ⟨hS, hP⟩
  | cons t rest ih =>
    intro acc hS hP
    have h := canonStep_preserves acc t hS hP
    exact ih (canonStep acc t) h.1 h.2

theorem canonFold_get (v : Var) (ts : List (Var × F)) :
    ∀ acc : List (Var × F), acc.Pairwise (fun a b => a.1 < b.1) →
      (∀ u ∈ acc, u.2 ≠ 0) →
      listGet v (ts.foldl canonStep acc) =
        (if (listGet v acc).getD 0 + sumC v ts = 0 then none
         else some ((listGet v acc).getD 0 + sumC v ts)) := by
  induction ts with
  | nil =>
    intro acc hS hP
    simp only [List.foldl_nil, sumC, add_zero]
    exact listGet_eq_if v acc hP
  | cons t rest ih =>
    intro acc hS hP
    have hpres := canonStep_preserves acc t hS hP
    rw [List.foldl_cons, ih (canonStep acc t) hpres.1 hpres.2]
    have hstep : (listGet v (canonStep acc t)).getD 0 =
        (listGet v acc).getD 0 + (if t.1 = v then t.2 else 0) := by
      by_cases hv : v = t.1
      · subst hv
        rw [listGet_canonStep_self acc t hS hP]
        simp only [if_pos rfl]
        by_cases hz : (listGet t.1 acc).getD 0 + t.2 = 0
        · simp [hz]
        · simp [hz]
      · rw [listGet_canonStep_ne acc t v hv]
        have : t.1 ≠ v := fun hh => hv hh.symm
        simp [this]
    rw [hstep, sumC, add_assoc]

end CanonLemmas

section EvalLemmas

variable {F : Type} [Field F] [DecidableEq F]

theorem evaluate_zeroLC (w : List (Var × F)) :
    LinComb.evaluate (LinComb.zeroLC : LinComb F) w = some 0 := rfl

theorem evalTerms_allOne (w : List (Var × F)) (L : List (Var × F))
    (hone : listGet varOne w = some 1) (hall : ∀ t ∈ L, t.1 = varOne) :
    evalTerms w L = some (L.map (fun t => (1 : F) * t.2)) := by
  induction L with
  | nil => rfl
  | cons t rest ih =>
    have ht : t.1 = varOne := hall t (List.mem_cons_self t rest)
    rw [evalTerms, ht, hone, ih (fun u hu => hall u (List.mem_cons_of_mem _ hu))]
    rfl

theorem foldl_add_map_one (L : List (Var × F)) : ∀ z : F,
    (L.map (fun t => (1 : F) * t.2)).foldl (fun acc t => acc + t) z =
      L.foldl (fun acc e => acc + e.2) z := by
  induction L with
  | nil => intro z; rfl
  | cons t rest ih =>
    intro z
    rw [List.map_cons, List.foldl_cons, List.foldl_cons, one_mul]
    exact ih (z + t.2)

theorem try_constant_error_eq (l e : LinComb F) (h : l.try_constant = .error e) :
    e = l := by
  unfold LinComb.try_constant at h
  split at h
  · exact Except.noConfusion h
  · split at h
    · exact (Except.error.inj h).symm
    · split at h
      · exact Except.noConfusion h
      · exact (Except.error.inj h).symm

theorem evalTerms_map_mul (w : List (Var × F)) (c : F) (L : List (Var × F)) :
    evalTerms w (L.map (fun t => (t.1, t.2 * c))) =
      (evalTerms w L).map (fun vs => vs.map (fun x => x * c)) := by
  induction L with
  | nil => rfl
  | cons t rest ih =>
    simp only [List.map_cons, evalTerms]
    cases hx : listGet t.1 w with
    | none => rfl
    | some x =>
      rw [ih]
      cases hr : evalTerms w rest with
      | none => rfl
      | some vs => simp [mul_assoc]

theorem foldl_add_map_mul (c : F) (vs : List F) : ∀ z : F,
    (vs.map (fun x => x * c)).foldl (fun acc t => acc + t) (z * c) =
      vs.foldl (fun acc t => acc + t) z * c := by
  induction vs with
  | nil => intro z; rfl
  | cons v rest ih =>
    intro z
    simp only [List.map_cons, List.foldl_cons]
    rw [← add_mul]
    exact ih (z + v)

theorem evaluate_mulScalar (l : LinComb F) (c : F) (w : List (Var × F)) :
    (l.mulScalar c).evaluate w = (l.evaluate w).map (fun x => x * c) := by
  rw [LinComb.mulScalar]
  by_cases hc : c = 1
  · subst hc
    rw [if_pos rfl]
    cases hev : l.evaluate w with
    | none => rfl
    | some x => simp
  · rw [if_neg hc, LinComb.evaluate, LinComb.evaluate]
    show (evalTerms w (l.terms.map (fun t => (t.1, t.2 * c)))).map _ = _
    rw [evalTerms_map_mul]
    cases hr : evalTerms w l.terms with
    | none => rfl
    | some vs =>
      simp only [Option.map_some']
      congr 1
      have h := foldl_add_map_mul c vs 0
      rw [zero_mul] at h
      exact h

theorem isZero_terms (l : LinComb F) (h : l.is_zero = true) : l.terms = [] := by
  rw [LinComb.is_zero] at h
  exact List.isEmpty_iff.mp h

end EvalLemmas

theorem try_constant_sound_aux {F : Type} [Field F] [DecidableEq F]
    (l : LinComb F) (k : F) (w : List (Var × F)) (v : F)
    (htc : l.try_constant = .ok k) (hw : isSeeded w)
    (hev : l.evaluate w = some v) : v = k := by
  rw [LinComb.evaluate] at hev
  cases hterms : l.terms with
  | nil =>
    simp only [LinComb.try_constant, hterms] at htc
    rw [hterms] at hev
    simp only [evalTerms, Option.map_some', List.foldl_nil, Option.some.injEq] at hev
    rw [← hev]
    exact Except.ok.inj htc
  | cons t0 rest =>
    simp only [LinComb.try_constant, hterms] at htc
    by_cases h1 : t0.1 ≠ varOne
    · rw [if_pos h1] at htc
      exact Except.noConfusion htc
    · rw [if_neg h1] at htc
      push_neg at h1
      by_cases h2 : (t0 :: rest).all (fun e => decide (e.1 = t0.1)) = true
      · rw [if_pos h2] at htc
        have hk := Except.ok.inj htc
        have hall : ∀ u ∈ t0 :: rest, u.1 = varOne := by
          intro u hu
          have := List.all_eq_true.mp h2 u hu
          simp only [decide_eq_true_eq] at this
          rw [this, h1]
        rw [hterms, evalTerms_allOne w (t0 :: rest) hw hall] at hev
        simp only [Option.map_some', Option.some.injEq] at hev
        rw [← hev, foldl_add_map_one, hk]
      · rw [if_neg h2] at htc
        exact Except.noConfusion htc

/-- C5: if `LinComb::try_constant` returns a field element `k`, then under every
witness (which by the spec's witness invariant binds `ONE ↦ 1`) for which the
combination evaluates successfully, the evaluation equals `k`. -/
theorem try_constant_sound {F : Type} [Field F] [DecidableEq F]
    (l : LinComb F) (k : F) (w : List (Var × F)) (v : F)
    (htc : l.try_constant = .ok k) (hw : isSeeded w)
    (hev : l.evaluate w = some v) : v = k :=
  try_constant_sound_aux l k w v htc hw hev

/-- C5 witness: the theorem applied to `2·ONE + 3·ONE` over `GF(7)` with the
seeded witness `{ONE ↦ 1}`. -/
theorem try_constant_sound_witness :
    (LinComb.try_constant (⟨[(varOne, 2), (varOne, 3)]⟩ : LinComb (ZMod 7)) = .ok 5) ∧
      (LinComb.evaluate (⟨[(varOne, 2), (varOne, 3)]⟩ : LinComb (ZMod 7))
        [(varOne, 1)] = some 5) ∧
      (5 : ZMod 7) = 5 :=
  ⟨by decide, by decide,
    try_constant_sound ⟨[(varOne, 2), (varOne, 3)]⟩ 5 [(varOne, 1)] 5
      (by decide) (by decide) (by decide)⟩

/-- C4: if `QuadComb::try_linear` returns a linear combination `M`, then under
every witness (binding `ONE ↦ 1` per the spec's witness invariant) for which
both the product and `M` evaluate successfully, the two values agree. -/
theorem try_linear_sound {F : Type} [Field F] [DecidableEq F]
    (q : QuadComb F) (M : LinComb F) (w : List (Var × F)) (x y : F)
    (htl : q.try_linear = .ok M) (hw : isSeeded w)
    (hq : q.evaluate w = some x) (hm : M.evaluate w = some y) : x = y := by
  rw [QuadComb.evaluate] at hq
  cases hl : q.left.evaluate w with
  | none => rw [hl] at hq; exact Option.noConfusion hq
  | some lv =>
    rw [hl] at hq
    cases hr : q.right.evaluate w with
    | none => rw [hr] at hq; exact Option.noConfusion hq
    | some rv =>
      rw [hr] at hq
      have hx : lv * rv = x := Option.some.inj hq
      rw [QuadComb.try_linear] at htl
      by_cases hz : (q.left.is_zero || q.right.is_zero) = true
      · rw [if_pos hz] at htl
        have hM : LinComb.zeroLC = M := Except.ok.inj htl
        rw [← hM, evaluate_zeroLC] at hm
        have hy : (0 : F) = y := Option.some.inj hm
        rcases (by simpa using hz :
          q.left.is_zero = true ∨ q.right.is_zero = true) with h0 | h0
        · have hlt : q.left.terms = [] := isZero_terms _ h0
          have : q.left.evaluate w = some 0 := by
            rw [LinComb.evaluate, hlt]
            simp [evalTerms]
          rw [this] at hl
          have hlv : (0 : F) = lv := Option.some.inj hl
          rw [← hx, ← hlv, zero_mul]
          exact hy
        · have hrt : q.right.terms = [] := isZero_terms _ h0
          have : q.right.evaluate w = some 0 := by
            rw [LinComb.evaluate, hrt]
            simp [evalTerms]
          rw [this] at hr
          have hrv : (0 : F) = rv := Option.some.inj hr
          rw [← hx, ← hrv, mul_zero]
          exact hy
      · rw [if_neg hz] at htl
        cases htc1 : q.left.try_constant with
        | ok c =>
          rw [htc1] at htl
          have hM : q.right.mulScalar c = M := Except.ok.inj htl
          have hlv : lv = c := try_constant_sound_aux q.left c w lv htc1 hw hl
          rw [← hM, evaluate_mulScalar, hr] at hm
          have hy : rv * c = y := Option.some.inj hm
          rw [← hx, ← hy, hlv, mul_comm]
        | error left1 =>
          rw [htc1] at htl
          have hle : left1 = q.left := try_constant_error_eq _ _ htc1
          cases htc2 : q.right.try_constant with
          | ok c =>
            rw [htc2] at htl
            have hM : left1.mulScalar c = M := Except.ok.inj htl
            have hrv : rv = c := try_constant_sound_aux q.right c w rv htc2 hw hr
            rw [← hM, hle, evaluate_mulScalar, hl] at hm
            have hy : lv * c = y := Option.some.inj hm
            rw [← hx, ← hy, hrv]
          | error right1 =>
            rw [htc2] at htl
            exact Except.noConfusion htl

/-- C4 witness: the theorem applied to `(3·ONE) · (1·v2)` over `GF(7)` with the
witness `{ONE ↦ 1, v2 ↦ 5}`. -/
theorem try_linear_sound_witness :
    (QuadComb.try_linear (⟨⟨[(varOne, 3)]⟩, ⟨[(2, 1)]⟩⟩ : QuadComb (ZMod 7)) =
        .ok ⟨[(2, 3)]⟩) ∧
      (QuadComb.evaluate (⟨⟨[(varOne, 3)]⟩, ⟨[(2, 1)]⟩⟩ : QuadComb (ZMod 7))
        [(varOne, 1), (2, 5)] = some 1) ∧
      (LinComb.evaluate (⟨[(2, 3)]⟩ : LinComb (ZMod 7)) [(varOne, 1), (2, 5)] =
        some 1) ∧
      (1 : ZMod 7) = 1 :=
  ⟨by decide, by decide, by decide,
    try_linear_sound ⟨⟨[(varOne, 3)]⟩, ⟨[(2, 1)]⟩⟩ ⟨[(2, 3)]⟩
      [(varOne, 1), (2, 5)] 1 1 (by decide) (by decide) (by decide) (by decide)⟩

/-- C7: two `LinComb`s are equal under the implementation's equality relation
(`impl PartialEq for LinComb`, which canonicalizes both sides) precisely when
their canonical forms have identical term sequences. -/
theorem lincomb_eq_iff_canonical {F : Type} [Field F] [DecidableEq F]
    (a b : LinComb F) :
    a.beqCanonical b = true ↔ a.into_canonical = b.into_canonical := by
  rw [LinComb.beqCanonical]
  exact decide_eq_true_iff

/-- C8: `into_canonical` yields a map with strictly ascending variables (hence
no duplicates), no zero coefficients, and for every variable the entry is the
sum of that variable's coefficients, dropped when the sum is zero; in
particular `[(v42, 1), (v42, −1), (v7, 3)]` canonicalizes to `[(v7, 3)]` and
displays as `"3 * _7"`. -/
theorem into_canonical_invariants :
    (∀ (F : Type) [Field F] [DecidableEq F] (l : LinComb F),
        (LinComb.into_canonical l).Pairwise (fun a b => a.1 < b.1) ∧
          (∀ t ∈ LinComb.into_canonical l, t.2 ≠ 0) ∧
          (∀ v : Var,
            listGet v (LinComb.into_canonical l) =
              (if sumC v l.terms = 0 then none else some (sumC v l.terms)))) ∧
      LinComb.into_canonical (⟨[(42, 1), (42, -1), (7, 3)]⟩ : LinComb (ZMod 101)) =
        [(7, 3)] ∧
      LinComb.display (⟨[(42, 1), (42, -1), (7, 3)]⟩ : LinComb (ZMod 101)) =
        "3 * _7" := by
  refine ⟨?_, by decide, by decide⟩
  intro F _ _ l
  have hinv := canonFold_inv l.terms [] (by simp) (by simp)
  refine ⟨hinv.1, hinv.2, ?_⟩
  intro v
  have hg := canonFold_get v l.terms [] (by simp) (by simp)
  simpa [listGet, LinComb.into_canonical] using hg

/-- C8 witness: the summation clause of the theorem applied over `GF(7)` to a
combination with a duplicated variable. -/
theorem into_canonical_invariants_witness :
    listGet 42 (LinComb.into_canonical (⟨[(42, 2), (42, 3)]⟩ : LinComb (ZMod 7))) =
      some 5 := by
  have h := (into_canonical_invariants.1 (ZMod 7) ⟨[(42, 2), (42, 3)]⟩).2.2 42
  rw [h]
  decide

section InterpLemmas

variable {p : Nat} [Fact p.Prime]

theorem execute_solver_isOk (s : Solver) (inputs : List (ZMod p))
    (r : Except String (List (ZMod p))) (h : execute_solver s inputs = some r) :
    ∃ v, r = .ok v := by
  rw [execute_solver] at h
  split at h
  · split at h
    · exact Option.noConfusion h
    · split at h
      · exact ⟨_, (Option.some.inj h).symm⟩
      · exact Option.noConfusion h
  · exact Option.noConfusion h

theorem execStatement_error_unsat (should_try : Bool) (w : List (Var × ZMod p))
    (s : Statement (ZMod p)) (e : Error)
    (h : execStatement should_try w s = some (.error e)) :
    ∃ a b, e = Error.UnsatisfiedConstraint a b := by
  cases s with
  | Constraint quad lin =>
    simp only [execStatement] at h
    split at h
    · split at h
      · exact Option.noConfusion h
      · split at h
        · exact Option.noConfusion h
        · exact Except.noConfusion (Option.some.inj h)
    · split at h
      · exact Option.noConfusion h
      · split at h
        · exact Option.noConfusion h
        · split at h
          · exact ⟨_, _, (Except.error.inj (Option.some.inj h)).symm⟩
          · exact Except.noConfusion (Option.some.inj h)
  | Directive d =>
    simp only [execStatement] at h
    split at h
    · split at h
      · exact Option.noConfusion h
      · exact Except.noConfusion (Option.some.inj h)
    · split at h
      · exact Option.noConfusion h
      · split at h
        · exact Option.noConfusion h
        · rename_i str hsol
          obtain ⟨v, hv⟩ := execute_solver_isOk _ _ _ hsol
          exact Except.noConfusion hv
        · split at h
          · exact Option.noConfusion h
          · exact Except.noConfusion (Option.some.inj h)

theorem execStatements_error_unsat (should_try : Bool)
    (sts : List (Statement (ZMod p))) :
    ∀ (w : List (Var × ZMod p)) (e : Error),
      execStatements should_try w sts = some (.error e) →
      ∃ a b, e = Error.UnsatisfiedConstraint a b := by
  induction sts with
  | nil =>
    intro w e h
    rw [execStatements] at h
    exact Except.noConfusion (Option.some.inj h)
  | cons s rest ih =>
    intro w e h
    rw [execStatements] at h
    cases hs : execStatement should_try w s with
    | none => rw [hs] at h; exact Option.noConfusion h
    | some r =>
      rw [hs] at h
      cases r with
      | error e2 =>
        have he : e2 = e := Except.error.inj (Option.some.inj h)
        exact he ▸ execStatement_error_unsat should_try w s e2 hs
      | ok w2 => exact ih w2 e h

end InterpLemmas

/-- C2: executing a `Constraint(Q, L)` statement under a current witness: `L` is
an assignee precisely when its stored term list is exactly one pair `(v, 1)`
with `v` unbound; in that case the interpreter evaluates `Q` and binds `v` to
the result; otherwise it evaluates both sides, failing with
`UnsatisfiedConstraint` carrying the decimal renderings exactly when the two
values differ, and continuing with the witness unchanged when they agree. -/
theorem constraint_execution_correct {p : Nat} [Fact p.Prime] (should_try : Bool)
    (w : List (Var × ZMod p)) (q : QuadComb (ZMod p)) (l : LinComb (ZMod p)) :
    (l.is_assignee w = true ↔ ∃ v : Var, l.terms = [(v, 1)] ∧ listGet v w = none) ∧
      (∀ (v : Var) (c val : ZMod p), l.terms = [(v, c)] → l.is_assignee w = true →
        q.evaluate w = some val →
        execStatement should_try w (.Constraint q l) =
          some (.ok (listInsert v val w))) ∧
      (∀ qv lv : ZMod p, l.is_assignee w = false → q.evaluate w = some qv →
        l.evaluate w = some lv → qv ≠ lv →
        execStatement should_try w (.Constraint q l) =
          some (.error (.UnsatisfiedConstraint (toDecString qv) (toDecString lv)))) ∧
      (∀ qv lv : ZMod p, l.is_assignee w = false → q.evaluate w = some qv →
        l.evaluate w = some lv → qv = lv →
        execStatement should_try w (.Constraint q l) = some (.ok w)) := by
  refine ⟨?_, ?_, ?_, ?_⟩
  · cases hts : l.terms with
    | nil => simp [LinComb.is_assignee, hts]
    | cons t rest =>
      obtain ⟨tv, tc⟩ := t
      cases rest with
      | nil =>
        rw [LinComb.is_assignee, hts]
        cases hget : listGet tv w with
        | none =>
          simp [hget]
          constructor
          · intro h
            exact ⟨tv, ⟨rfl, h⟩, hget⟩
          · rintro ⟨v, ⟨hv, h1⟩, h2⟩
            exact h1
        | some x => simp [hget]
      | cons t2 rest2 => simp [LinComb.is_assignee, hts]
  · intro v c val hterms hA hq
    simp only [execStatement]
    rw [if_pos hA, hq, hterms]
  · intro qv lv hA hq hl hne
    simp only [execStatement]
    rw [if_neg (by rw [hA]; exact Bool.false_ne_true)]
    simp only [hq, hl]
    rw [if_pos hne]
  · intro qv lv hA hq hl heq
    simp only [execStatement]
    rw [if_neg (by rw [hA]; exact Bool.false_ne_true)]
    simp only [hq, hl]
    rw [if_neg (not_not_intro heq)]

/-- C2 witness: the assignment form applied over `GF(7)`: witness `{ONE ↦ 1}`,
constraint `(1·ONE)·(3·ONE) = 1·v2` binds `v2 ↦ 3`. -/
theorem constraint_execution_correct_witness :
    (LinComb.terms (⟨[(2, 1)]⟩ : LinComb (ZMod 7)) = [(2, 1)]) ∧
      (LinComb.is_assignee (⟨[(2, 1)]⟩ : LinComb (ZMod 7)) [(varOne, 1)] = true) ∧
      (QuadComb.evaluate (⟨⟨[(varOne, 1)]⟩, ⟨[(varOne, 3)]⟩⟩ : QuadComb (ZMod 7))
        [(varOne, 1)] = some 3) ∧
      execStatement (p := 7) false [(varOne, 1)]
          (.Constraint ⟨⟨[(varOne, 1)]⟩, ⟨[(varOne, 3)]⟩⟩ ⟨[(2, 1)]⟩) =
        some (.ok (listInsert 2 3 [(varOne, 1)])) :=
  ⟨rfl, by decide, by decide,
    (constraint_execution_correct false [(varOne, 1)]
      ⟨⟨[(varOne, 1)]⟩, ⟨[(varOne, 3)]⟩⟩ ⟨[(2, 1)]⟩).2.1 2 1 3 rfl (by decide)
      (by decide)⟩

/-- C10: a directive executed on the ordinary solver path with an output
variable that is already bound does not fail: the solver result is inserted,
silently overwriting the existing binding, and execution continues. -/
theorem directive_overwrite_correct {p : Nat} [Fact p.Prime] (should_try : Bool)
    (w : List (Var × ZMod p)) (d : Directive (ZMod p)) (o : Var) (old r : ZMod p)
    (rs ins : List (ZMod p))
    (hguard : directiveGuard p should_try d = false)
    (hbound : listGet o w = some old)
    (houts : d.outputs = [o])
    (hins : evalInputs w d.inputs = some ins)
    (hsolve : execute_solver d.solver ins = some (.ok (r :: rs))) :
    execStatement should_try w (.Directive d) = some (.ok (listInsert o r w)) ∧
      listGet o (listInsert o r w) = some r := by
  constructor
  · simp only [execStatement]
    rw [if_neg (by rw [hguard]; exact Bool.false_ne_true)]
    simp only [hins, hsolve, houts]
    rfl
  · exact listGet_insert_self o r w

/-- C10 witness: over `GF(7)`, the directive `Xor(1, 0) → v5` with `v5` already
bound to 4 overwrites it with 1 and succeeds. -/
theorem directive_overwrite_correct_witness :
    (directiveGuard 7 false
        ⟨[⟨⟨[(varOne, 1)]⟩, ⟨[(varOne, 1)]⟩⟩, ⟨⟨[(varOne, 1)]⟩, ⟨[]⟩⟩], .Xor, [5]⟩ =
      false) ∧
      (listGet 5 [(varOne, (1 : ZMod 7)), (5, 4)] = some 4) ∧
      (evalInputs [(varOne, (1 : ZMod 7)), (5, 4)]
        [⟨⟨[(varOne, 1)]⟩, ⟨[(varOne, 1)]⟩⟩, ⟨⟨[(varOne, 1)]⟩, ⟨[]⟩⟩] =
        some [1, 0]) ∧
      (execute_solver (p := 7) .Xor [1, 0] = some (.ok [1])) ∧
      execStatement (p := 7) false [(varOne, 1), (5, 4)]
          (.Directive ⟨[⟨⟨[(varOne, 1)]⟩, ⟨[(varOne, 1)]⟩⟩,
            ⟨⟨[(varOne, 1)]⟩, ⟨[]⟩⟩], .Xor, [5]⟩) =
        some (.ok (listInsert 5 1 [(varOne, 1), (5, 4)])) ∧
      listGet 5 (listInsert 5 (1 : ZMod 7) [(varOne, 1), (5, 4)]) = some 1 :=
  ⟨by decide, by decide, by decide, by decide,
    directive_overwrite_correct false [(varOne, 1), (5, 4)]
      ⟨[⟨⟨[(varOne, 1)]⟩, ⟨[(varOne, 1)]⟩⟩, ⟨⟨[(varOne, 1)]⟩, ⟨[]⟩⟩], .Xor, [5]⟩
      5 4 1 [] [1, 0] (by decide) (by decide) rfl (by decide) (by decide)⟩

/-- C6: `execute_solver` returns `Ok` whenever it returns at all; failures such
as a bit decomposition that does not end at zero, or a division by zero, abort
by panic (modelled as `none`) rather than producing an `Err`; consequently
`execute` never returns `Error::Solver`. -/
theorem solver_failures_panic {p : Nat} [Fact p.Prime] :
    (∀ (s : Solver) (inputs : List (ZMod p)) (r : Except String (List (ZMod p))),
        execute_solver s inputs = some r → ∃ v, r = .ok v) ∧
      (∀ (bw : Nat) (x : ZMod p), (bitsGo bw x).2 ≠ 0 →
        execute_solver (.Bits bw) [x] = none) ∧
      (∀ a : ZMod p, execute_solver .Div [a, 0] = none) ∧
      (∀ (should_try : Bool) (prog : Prog (ZMod p)) (inputs : List (ZMod p)),
        execute should_try prog inputs ≠ some (.error .Solver)) := by
  refine ⟨execute_solver_isOk, ?_, ?_, ?_⟩
  · intro bw x hne
    simp [execute_solver, solverValue, Solver.get_signature, hne]
  · intro a
    simp [execute_solver, solverValue, Solver.get_signature]
  · intro should_try prog inputs hcontra
    rw [execute] at hcontra
    by_cases harity : prog.arguments.length = inputs.length
    · rw [check_inputs, if_pos harity] at hcontra
      obtain ⟨a, b, hab⟩ :=
        execStatements_error_unsat should_try prog.statements _ _ hcontra
      exact Error.noConfusion hab
    · rw [check_inputs, if_neg harity] at hcontra
      exact Error.noConfusion (Except.error.inj (Option.some.inj hcontra))

/-- C6 witness: the theorem applied over `GF(7)`: `Div` by zero panics
(`none`), and a successful `Xor` run is an `Ok`. -/
theorem solver_failures_panic_witness :
    execute_solver (p := 7) Solver.Div [3, 0] = none ∧
      ∃ v, (Except.ok [(1 : ZMod 7)] : Except String (List (ZMod 7))) = .ok v :=
  ⟨solver_failures_panic.2.2.1 3,
    solver_failures_panic.1 Solver.Xor [1, 0] (.ok [1]) (by decide)⟩

/-- C9: `execute` fails with `WrongInputCount{expected, received}` exactly when
the number of inputs differs from the number of declared arguments, with
`expected` the argument count and `received` the input count, and the error
displays with singular forms exactly when the respective count is 1. -/
theorem wrong_input_count_correct {p : Nat} [Fact p.Prime] :
    (∀ (should_try : Bool) (prog : Prog (ZMod p)) (inputs : List (ZMod p)),
      (inputs.length ≠ prog.arguments.length →
        execute should_try prog inputs =
          some (.error (.WrongInputCount prog.arguments.length inputs.length))) ∧
      (inputs.length = prog.arguments.length → ∀ er rc : Nat,
        execute should_try prog inputs ≠
          some (.error (.WrongInputCount er rc)))) ∧
    (∀ er rc : Nat,
      errDisplay (.WrongInputCount er rc) =
        "Program takes " ++ toString er ++
          (if er = 1 then " input" else " inputs") ++
        " but was passed " ++ toString rc ++
          (if rc = 1 then " value" else " values")) := by
  constructor
  · intro should_try prog inputs
    constructor
    · intro hne
      rw [execute, check_inputs, if_neg (fun hh => hne hh.symm)]
    · intro heq er rc hcontra
      rw [execute, check_inputs, if_pos heq.symm] at hcontra
      obtain ⟨a, b, hab⟩ :=
        execStatements_error_unsat should_try prog.statements _ _ hcontra
      exact Error.noConfusion hab
  · intro er rc
    have hv : (" value" ++ "s" : String) = " values" := rfl
    have hi : (" input" ++ "s" : String) = " inputs" := rfl
    rw [errDisplay]
    by_cases he : er = 1 <;> by_cases hr : rc = 1 <;>
      simp [he, hr, String.append_assoc, String.append_empty,
        String.empty_append, hv, hi]

/-- C9 witness: the theorem applied over `GF(7)` to a program with two declared
arguments and one supplied input, including the rendered message. -/
theorem wrong_input_count_correct_witness :
    ((1 : Nat) ≠ (2 : Nat)) ∧
      execute (p := 7) false ⟨[1, 2], []⟩ [3] =
        some (.error (.WrongInputCount 2 1)) ∧
      errDisplay (.WrongInputCount 2 1) =
        "Program takes " ++ toString (2 : Nat) ++
          (if (2 : Nat) = 1 then " input" else " inputs") ++
        " but was passed " ++ toString (1 : Nat) ++
          (if (1 : Nat) = 1 then " value" else " values") :=
  ⟨by decide,
    ((wrong_input_count_correct (p := 7)).1 false ⟨[1, 2], []⟩ [3]).1 (by decide),
    (wrong_input_count_correct (p := 7)).2 2 1⟩

/-- C1: the guard of the directive arm as implemented diverges from the claimed
condition: with Rust precedence the condition is
`left.len > 1 || (right.len > 1 && bitwidth = B)`, so over `GF(7)` (required
bit-count `B = 3`) a `Bits(2)` directive whose first input has a two-term left
factor takes the out-of-range path even though `bitwidth ≠ B`, while the
claimed condition `(left.len > 1 || right.len > 1) && bitwidth = B` rejects
it. -/
theorem out_of_range_guard_precedence :
    directiveGuard 7 true
        ⟨[⟨⟨[(1, 1), (2, 1)]⟩, ⟨[(varOne, 1)]⟩⟩], .Bits 2, []⟩ = true ∧
      specDirectiveCondition 7 true
        ⟨[⟨⟨[(1, 1), (2, 1)]⟩, ⟨[(varOne, 1)]⟩⟩], .Bits 2, []⟩ = false ∧
      requiredBits 7 = 3 := by
  decide

section BitsLemmas

variable {p : Nat} [Fact p.Prime]

theorem bitsGo_length (w : Nat) : ∀ x : ZMod p, (bitsGo w x).1.length = w := by
  induction w with
  | zero => intro x; rfl
  | succ i ih =>
    intro x
    rw [bitsGo]
    by_cases h : ((2 : ZMod p) ^ i).val ≤ x.val
    · simp only [if_pos h, List.length_cons, ih]
    · simp only [if_neg h, List.length_cons, ih]

theorem val_two_pow (i : Nat) (h : 2 ^ i < p) : ((2 : ZMod p) ^ i).val = 2 ^ i := by
  have h2 : ((2 : ZMod p) ^ i) = ((2 ^ i : Nat) : ZMod p) := by push_cast; ring
  rw [h2, ZMod.val_cast_of_lt h]

theorem bitsGo_spec (w : Nat) :
    ∀ x : ZMod p, (∀ i, i < w → 2 ^ i < p) → x.val < 2 ^ w →
      (bitsGo w x).2 = 0 ∧ wsum (bitsGo w x).1 = x.val ∧
        ∀ b ∈ (bitsGo w x).1, b = 0 ∨ b = 1 := by
  induction w with
  | zero =>
    intro x hpow hx
    have h0 : x.val = 0 := Nat.lt_one_iff.mp hx
    refine ⟨(ZMod.val_eq_zero x).mp h0, ?_, ?_⟩
    · show (0 : Nat) = x.val
      omega
    · intro b hb
      exact absurd hb (List.not_mem_nil b)
  | succ i ih =>
    intro x hpow hx
    have hip : 2 ^ i < p := hpow i (Nat.lt_succ_self i)
    have hval : ((2 : ZMod p) ^ i).val = 2 ^ i := val_two_pow i hip
    have hpow' : ∀ j, j < i → 2 ^ j < p := fun j hj => hpow j (Nat.lt_succ_of_lt hj)
    by_cases hle : ((2 : ZMod p) ^ i).val ≤ x.val
    · have hgo : bitsGo (i + 1) x =
          ((1 : ZMod p) :: (bitsGo i (x - (2 : ZMod p) ^ i)).1,
            (bitsGo i (x - (2 : ZMod p) ^ i)).2) := by
        rw [bitsGo, if_pos hle]
      have hsub : (x - (2 : ZMod p) ^ i).val = x.val - 2 ^ i := by
        rw [ZMod.val_sub hle, hval]
      have hlt : (x - (2 : ZMod p) ^ i).val < 2 ^ i := by
        rw [hsub]
        rw [hval] at hle
        rw [pow_succ] at hx
        omega
      obtain ⟨h1, h2, h3⟩ := ih (x - (2 : ZMod p) ^ i) hpow' hlt
      rw [hgo]
      refine ⟨h1, ?_, ?_⟩
      · show wsum ((1 : ZMod p) :: (bitsGo i (x - (2 : ZMod p) ^ i)).1) = x.val
        rw [wsum, bitsGo_length, h2, hsub, ZMod.val_one]
        rw [hval] at hle
        omega
      · intro b hb
        rcases List.mem_cons.mp hb with h | h
        · exact Or.inr h
        · exact h3 b h
    · have hgo : bitsGo (i + 1) x =
          ((0 : ZMod p) :: (bitsGo i x).1, (bitsGo i x).2) := by
        rw [bitsGo, if_neg hle]
      have hlt : x.val < 2 ^ i := by
        rw [hval] at hle
        omega
      obtain ⟨h1, h2, h3⟩ := ih x hpow' hlt
      rw [hgo]
      refine ⟨h1, ?_, ?_⟩
      · show wsum ((0 : ZMod p) :: (bitsGo i x).1) = x.val
        rw [wsum, bitsGo_length, h2, ZMod.val_zero]
        omega
      · intro b hb
        rcases List.mem_cons.mp hb with h | h
        · exact Or.inl h
        · exact h3 b h

theorem wsum_lt : ∀ l : List (ZMod p), (∀ b ∈ l, b = 0 ∨ b = 1) →
    wsum l < 2 ^ l.length := by
  intro l
  induction l with
  | nil =>
    intro
    show (0 : Nat) < 2 ^ 0
    omega
  | cons b rest ih =>
    intro hb
    rw [wsum, List.length_cons, pow_succ]
    have hbv : b.val ≤ 1 := by
      rcases hb b (List.mem_cons_self b rest) with h | h
      · rw [h, ZMod.val_zero]
        omega
      · rw [h, ZMod.val_one]
    have hrest := ih (fun u hu => hb u (List.mem_cons_of_mem _ hu))
    have h1 : b.val * 2 ^ rest.length ≤ 2 ^ rest.length := by
      calc b.val * 2 ^ rest.length ≤ 1 * 2 ^ rest.length :=
            Nat.mul_le_mul_right _ hbv
        _ = 2 ^ rest.length := one_mul _
    omega

theorem bits_unique : ∀ l1 l2 : List (ZMod p),
    (∀ b ∈ l1, b = 0 ∨ b = 1) → (∀ b ∈ l2, b = 0 ∨ b = 1) →
    l1.length = l2.length → wsum l1 = wsum l2 → l1 = l2 := by
  intro l1
  induction l1 with
  | nil =>
    intro l2 _ _ hlen _
    exact (List.length_eq_zero.mp hlen.symm).symm
  | cons b1 r1 ih =>
    intro l2 hb1 hb2 hlen hsum
    cases l2 with
    | nil => exact absurd hlen (by simp)
    | cons b2 r2 =>
      have hlen2 : r1.length = r2.length := by simpa using hlen
      rw [wsum, wsum, hlen2] at hsum
      have hs1 : wsum r1 < 2 ^ r2.length := by
        rw [← hlen2]
        exact wsum_lt r1 (fun u hu => hb1 u (List.mem_cons_of_mem _ hu))
      have hs2 : wsum r2 < 2 ^ r2.length :=
        wsum_lt r2 (fun u hu => hb2 u (List.mem_cons_of_mem _ hu))
      have hv1 : b1.val = 0 ∨ b1.val = 1 := by
        rcases hb1 b1 (List.mem_cons_self b1 r1) with h | h
        · rw [h, ZMod.val_zero]; exact Or.inl rfl
        · rw [h, ZMod.val_one]; exact Or.inr rfl
      have hv2 : b2.val = 0 ∨ b2.val = 1 := by
        rcases hb2 b2 (List.mem_cons_self b2 r2) with h | h
        · rw [h, ZMod.val_zero]; exact Or.inl rfl
        · rw [h, ZMod.val_one]; exact Or.inr rfl
      have hveq : b1.val = b2.val := by
        rcases hv1 with h | h <;> rcases hv2 with h' | h' <;>
          rw [h, h'] at hsum ⊢ <;>
          simp only [zero_mul, one_mul, Nat.zero_add] at hsum <;> omega
      have hbeq : b1 = b2 := ZMod.val_injective p hveq
      have htails : r1 = r2 := by
        rw [hbeq] at hsum
        refine ih r2 (fun u hu => hb1 u (List.mem_cons_of_mem _ hu))
          (fun u hu => hb2 u (List.mem_cons_of_mem _ hu)) hlen2 ?_
        omega
      rw [hbeq, htails]

end BitsLemmas

/-- C3 counterexample: over `GF(7)` (required bit-count `B = 3`), the `Bits(4)`
solver applied to `x = 3` (whose integer value 3 lies in `[0, 2^4)`) succeeds
with `[1, 0, 1, 0]`, whose weighted sum is 10, not 3: when `w` exceeds `B` the
field powers `2^i` wrap around the modulus and the claimed weighted-sum
property fails. -/
theorem bits_solver_claim_counterexample :
    execute_solver (p := 7) (.Bits 4) [3] = some (.ok [1, 0, 1, 0]) ∧
      wsum (p := 7) [1, 0, 1, 0] = 10 ∧
      (3 : ZMod 7).val = 3 ∧ (3 : ZMod 7).val < 2 ^ 4 ∧
      wsum (p := 7) [1, 0, 1, 0] ≠ (3 : ZMod 7).val := by
  decide

/-- C3 (amended): for every bit-width `w` such that every power `2^i` with
`i < w` is below the modulus (in particular whenever `w ≤ B`), and every field
element `x` with integer value in `[0, 2^w)`, the `Bits(w)` solver returns `Ok`
with exactly `w` field elements, each `0` or `1`, most significant first, whose
weighted sum `Σ bit_i · 2^(w−1−i)` equals `x`; the decomposition is the unique
such bit vector. -/
theorem bits_solver_correct {p : Nat} [Fact p.Prime] (w : Nat) (x : ZMod p)
    (hpow : ∀ i, i < w → 2 ^ i < p) (hx : x.val < 2 ^ w) :
    ∃ res : List (ZMod p),
      execute_solver (.Bits w) [x] = some (.ok res) ∧
        res.length = w ∧ (∀ b ∈ res, b = 0 ∨ b = 1) ∧ wsum res = x.val ∧
        ∀ l : List (ZMod p), l.length = w → (∀ b ∈ l, b = 0 ∨ b = 1) →
          wsum l = x.val → l = res := by
  obtain ⟨h1, h2, h3⟩ := bitsGo_spec w x hpow hx
  refine ⟨(bitsGo w x).1, ?_, bitsGo_length w x, h3, h2, ?_⟩
  · rw [execute_solver]
    simp [solverValue, Solver.get_signature, h1, bitsGo_length]
  · intro l hl hbits hs
    refine bits_unique l _ hbits h3 ?_ ?_
    · rw [hl, bitsGo_length]
    · rw [hs, h2]

/-- C3 witness: the amended theorem applied over `GF(7)` with `w = B = 3` and
`x = 5`. -/
theorem bits_solver_correct_witness :
    (∀ i, i < 3 → 2 ^ i < 7) ∧ ((5 : ZMod 7).val < 2 ^ 3) ∧
      ∃ res : List (ZMod 7),
        execute_solver (.Bits 3) [5] = some (.ok res) ∧
          res.length = 3 ∧ (∀ b ∈ res, b = 0 ∨ b = 1) ∧
          wsum res = (5 : ZMod 7).val ∧
          ∀ l : List (ZMod 7), l.length = 3 → (∀ b ∈ l, b = 0 ∨ b = 1) →
            wsum l = (5 : ZMod 7).val → l = res :=
  ⟨by decide, by decide, bits_solver_correct 3 5 (by decide) (by decide)⟩

end ZKIR
